import Mathlib

/-!
# Verification of the RMSS viral-protein simulator core

Shallow embedding of `simulation_core.py`: the similarity scorer
(`compare_proteins`), the translation codec (`translate_from_start`), the
mutation engine (`replicate_sequence` and its per-offspring mutation loop),
and the cycle orchestrator's selection / best-ever / abort logic from
`simulate_multiple_cycles`.

Randomness is modelled by an explicit oracle: a stream of rational draws
in `[0,1)` together with a position; each call to a random primitive
consumes one draw.  Python floats are modelled as rationals.
-/

/-! ## Similarity Scorer (`compare_proteins`)

The repository configures `Bio.Align.PairwiseAligner()` with mode `global`
and default scores (match = 1, mismatch = 0, gaps = 0).  Under that scheme
the optimal global alignment score is the longest-common-subsequence length,
embedded here as `alignScore`. -/

/-- Optimal global-alignment score with match = 1, mismatch = 0, gap = 0 —
the score computed by the aligner `simulation_core.py` constructs. -/
def alignScore : List Char → List Char → Nat
  | [], _ => 0
  | _ :: _, [] => 0
  | a :: as, b :: bs =>
      max (max (alignScore as (b :: bs)) (alignScore (a :: as) bs))
          ((if a = b then 1 else 0) + alignScore as bs)
termination_by x y => x.length + y.length
decreasing_by all_goals simp [List.length_cons] <;> omega

/-- Embedding of `compare_proteins` (src/simulation_core.py:147-154):
return 0 if either protein is empty, 100 if they are identical, otherwise
the normalized global alignment score. -/
def compare_proteins (prot1 prot2 : List Char) : ℚ :=
  if prot1 = [] ∨ prot2 = [] then 0
  else if prot1 = prot2 then 100
  else ((alignScore prot1 prot2 : ℚ) / ((max prot1.length prot2.length : Nat) : ℚ)) * 100

/-! ## Substitution mapping (`mutate_base_by_type`) -/

/-- The random oracle: a stream of rational draws with a cursor. -/
structure Rng where
  stream : Nat → ℚ
  pos : Nat

/-- The draw the next random primitive will consume. -/
def Rng.peek (g : Rng) : ℚ := g.stream g.pos

/-- Advance the cursor past `k` consumed draws. -/
def Rng.adv (g : Rng) (k : Nat) : Rng := ⟨g.stream, g.pos + k⟩

/-- A stream of draws in `[0,1)`, as `random.random()` produces. -/
def ValidStream (f : Nat → ℚ) : Prop := ∀ n, 0 ≤ f n ∧ f n < 1

/-- Model of `random.choices([x, y], weights=[w1, w2])[0]` on one uniform
draw `r`: the first element is chosen iff `r * (w1 + w2) < w1` (CPython
draws `random() * total` and bisects the cumulative weights). -/
def choicesFirst (w1 w2 r : ℚ) : Bool := decide (r * (w1 + w2) < w1)

/-- Index drawn by `random.choice` on a sequence of length `len`,
from one uniform draw `r`: `⌊r·len⌋`, clamped into range. -/
def pyChoiceIdx (len : Nat) (r : ℚ) : Nat := min (len - 1) (r * len).floor.toNat

/-- Model of `random.randint(1, m)` on one uniform draw `r`:
`1 + ⌊r·m⌋`, clamped into `[1, m]`. -/
def pyRandint1 (m : Nat) (r : ℚ) : Nat := 1 + min (m - 1) (r * m).floor.toNat

/-- The two substitution kinds of `mutate_base_by_type`. -/
inductive MutKind
  | transition
  | transversion
deriving DecidableEq, Repr

/-- The transition dictionary `{"A": "G", "G": "A", "C": "T", "T": "C"}`
with `.get(base, base)` (src/simulation_core.py:86). -/
def transitionChar (c : Char) : Char :=
  if c = 'A' then 'G'
  else if c = 'G' then 'A'
  else if c = 'C' then 'T'
  else if c = 'T' then 'C'
  else c

/-- The transversion dictionary
`{"A": ["C","T"], "G": ["C","T"], "C": ["A","G"], "T": ["A","G"]}`
with default `[base]` (src/simulation_core.py:88). -/
def transversionTargets (c : Char) : List Char :=
  if c = 'A' ∨ c = 'G' then ['C', 'T']
  else if c = 'C' ∨ c = 'T' then ['A', 'G']
  else [c]

/-- Embedding of `mutate_base_by_type` (src/simulation_core.py:83-91).
The transition branch is deterministic and consumes no draw; the
transversion branch consumes one draw via `random.choice`. -/
def mutate_base_by_type (c : Char) (kind : MutKind) (g : Rng) : Char × Rng :=
  match kind with
  | MutKind.transition => (transitionChar c, g)
  | MutKind.transversion =>
      ((transversionTargets c).getD (pyChoiceIdx (transversionTargets c).length g.peek) c,
        g.adv 1)

/-! ## Translation Codec (`translate_from_start`)

Sequences follow the data model: nucleotides over the alphabet {A,T,C,G}.
On that alphabet `Bio.Seq.translate(to_stop=False)` is total (stop codons
become `*`), so the `try/except` in the source never fires. -/

/-- A nucleotide. -/
inductive Base
  | A
  | T
  | C
  | G
deriving DecidableEq, Repr

/-- The standard genetic code on DNA codons, stop codons mapped to `*`
(`Bio.Seq.translate` with the default table and `to_stop=False`). -/
def aminoAcid : Base → Base → Base → Char
  | Base.T, Base.T, Base.T => 'F'
  | Base.T, Base.T, Base.C => 'F'
  | Base.T, Base.T, Base.A => 'L'
  | Base.T, Base.T, Base.G => 'L'
  | Base.C, Base.T, _ => 'L'
  | Base.A, Base.T, Base.G => 'M'
  | Base.A, Base.T, _ => 'I'
  | Base.G, Base.T, _ => 'V'
  | Base.T, Base.C, _ => 'S'
  | Base.C, Base.C, _ => 'P'
  | Base.A, Base.C, _ => 'T'
  | Base.G, Base.C, _ => 'A'
  | Base.T, Base.A, Base.T => 'Y'
  | Base.T, Base.A, Base.C => 'Y'
  | Base.T, Base.A, Base.A => '*'
  | Base.T, Base.A, Base.G => '*'
  | Base.C, Base.A, Base.T => 'H'
  | Base.C, Base.A, Base.C => 'H'
  | Base.C, Base.A, Base.A => 'Q'
  | Base.C, Base.A, Base.G => 'Q'
  | Base.A, Base.A, Base.T => 'N'
  | Base.A, Base.A, Base.C => 'N'
  | Base.A, Base.A, Base.A => 'K'
  | Base.A, Base.A, Base.G => 'K'
  | Base.G, Base.A, Base.T => 'D'
  | Base.G, Base.A, Base.C => 'D'
  | Base.G, Base.A, Base.A => 'E'
  | Base.G, Base.A, Base.G => 'E'
  | Base.T, Base.G, Base.T => 'C'
  | Base.T, Base.G, Base.C => 'C'
  | Base.T, Base.G, Base.A => '*'
  | Base.T, Base.G, Base.G => 'W'
  | Base.C, Base.G, _ => 'R'
  | Base.A, Base.G, Base.T => 'S'
  | Base.A, Base.G, Base.C => 'S'
  | Base.A, Base.G, Base.A => 'R'
  | Base.A, Base.G, Base.G => 'R'
  | Base.G, Base.G, _ => 'G'

/-- Codon-by-codon translation of a (multiple-of-3 length) coding region. -/
def translateCodons : List Base → List Char
  | b1 :: b2 :: b3 :: rest => aminoAcid b1 b2 b3 :: translateCodons rest
  | _ => []

/-- Whether the sequence starts with the codon ATG (one probe of
`str.find("ATG")`). -/
def atgAt (l : List Base) : Bool := decide ([Base.A, Base.T, Base.G] <+: l)

/-- Embedding of `seq.find("ATG")` (src/simulation_core.py:125): index of
the first occurrence of ATG, `none` when absent (-1 in Python). -/
def findAtg : List Base → Option Nat
  | [] => none
  | b :: rest => if atgAt (b :: rest) then some 0 else (findAtg rest).map (· + 1)

/-- Non-fatal diagnostics raised via `warnings.warn`. -/
inductive Diag
  | noStartCodon
  | tooShort
deriving DecidableEq, Repr, BEq

/-- Embedding of `translate_from_start` (src/simulation_core.py:124-145):
take the coding region from the first ATG (from position 0 with a
`noStartCodon` diagnostic when absent), drop the trailing partial codon,
return `""` with a `tooShort` diagnostic when fewer than 3 bases remain,
else translate codon by codon.  The first component is the protein, the
second the diagnostics raised during the call. -/
def translate_from_start (seq : List Base) : List Char × List Diag :=
  let startProbe := findAtg seq
  let codingRegion := match startProbe with
    | none => seq
    | some p => seq.drop p
  let d1 : List Diag := match startProbe with
    | none => [Diag.noStartCodon]
    | some _ => []
  let trimmed := codingRegion.take (codingRegion.length - codingRegion.length % 3)
  if trimmed.length < 3 then ([], d1 ++ [Diag.tooShort])
  else (translateCodons trimmed, d1)

/-! ## Mutation Engine (`replicate_sequence`)

The per-offspring `while i < len(replicated_sequence)` loop of
`replicate_sequence` (src/simulation_core.py:61-76) is embedded with an
explicit iteration budget (`fuel`), since an adversarial draw stream can
make the loop run forever; `none` means the budget was exhausted with the
loop still running.  `mutLoopC` additionally counts how many executed
iterations took the insertion branch. -/

/-- The mutation parameters of `replicate_sequence`.  The `sub`/`indel` and
`tran`/`transv` ratios of the source are relative categorical weights. -/
structure MutationConfig where
  mutation_rate : ℚ
  subWeight : ℚ
  indelWeight : ℚ
  tranWeight : ℚ
  transvWeight : ℚ
deriving Repr

/-- Embedding of `bytearray.insert(i, b)`: insert `b` before position `i`. -/
def insertAt (i : Nat) (b : Char) (s : List Char) : List Char :=
  s.take i ++ b :: s.drop i

/-- Embedding of `del replicated_sequence[i:i + d]`: remove the run of
length `d` starting at position `i`. -/
def deleteRun (i d : Nat) (s : List Char) : List Char :=
  s.take i ++ s.drop (i + d)

/-- One full run of the mutation loop of `replicate_sequence`
(src/simulation_core.py:61-76) on iteration budget `fuel`, returning the
mutated sequence and final rng (`none` if the budget ran out), paired with
the number of executed iterations that took the insertion branch.
Per iteration: draw 1 is the `random.random() < mutation_rate` test;
draw 2 the `random.choices(["substitution","indel"], ...)` category;
then either draw 3 picks `transition`/`transversion` (draw 4 feeding
`random.choice` for a transversion), or draw 3 is the insert/delete coin
and draw 4 feeds `random.choice(bases)` resp. `random.randint`. -/
def mutLoopC (cfg : MutationConfig) : Nat → List Char → Nat → Rng → Option (List Char × Rng) × Nat
  | 0, s, i, g => if i < s.length then (none, 0) else (some (s, g), 0)
  | fuel + 1, s, i, g =>
    if i < s.length then
      if g.peek < cfg.mutation_rate then
        if choicesFirst cfg.subWeight cfg.indelWeight (g.adv 1).peek then
          let kind := if choicesFirst cfg.tranWeight cfg.transvWeight (g.adv 2).peek
            then MutKind.transition else MutKind.transversion
          let p := mutate_base_by_type (s.getD i 'A') kind (g.adv 3)
          mutLoopC cfg fuel (s.set i p.1) (i + 1) p.2
        else
          if (g.adv 2).peek < 1/2 then
            let b := List.getD ['A', 'T', 'C', 'G'] (pyChoiceIdx 4 (g.adv 3).peek) 'A'
            let r := mutLoopC cfg fuel (insertAt i b s) (i + 1) (g.adv 4)
            (r.1, r.2 + 1)
          else
            let d := pyRandint1 (min 3 (s.length - i)) (g.adv 3).peek
            mutLoopC cfg fuel (deleteRun i d s) i (g.adv 4)
      else mutLoopC cfg fuel s (i + 1) (g.adv 1)
    else (some (s, g), 0)

/-- The mutation loop's value: mutated sequence and final rng, or `none`
when the iteration budget ran out. -/
def mutLoop (cfg : MutationConfig) (fuel : Nat) (s : List Char) (i : Nat) (g : Rng) :
    Option (List Char × Rng) :=
  (mutLoopC cfg fuel s i g).1

/-- Embedding of `replicate_sequence` (src/simulation_core.py:53-81):
produce `n` offspring of `sequence`, each by one run of the mutation loop,
each recorded with lineage `history + [offspring]`, threading the rng left
to right.  `none` if any loop run exhausts its budget. -/
def replicate_sequence (sequence : List Char) (history : List (List Char)) :
    Nat → MutationConfig → Nat → Rng → Option (List (List Char × List (List Char)) × Rng)
  | 0, _, _, g => some ([], g)
  | n + 1, cfg, fuel, g =>
    match mutLoop cfg fuel sequence 0 g with
    | none => none
    | some (newSeq, g1) =>
      match replicate_sequence sequence history n cfg fuel g1 with
      | none => none
      | some (rest, g2) => some ((newSeq, history ++ [newSeq]) :: rest, g2)

/-- The all-insertions adversary used to refute unconditional termination:
`mutation_rate = 1` and substitution weight 0, so with the constant-0 draw
stream every iteration is an insertion. -/
def cfgAllIns : MutationConfig := ⟨1, 0, 1, 1, 1⟩

/-- The constant-0 draw stream. -/
def zeroStream : Nat → ℚ := fun _ => 0

/-- Whether the mutation loop returns at all on some iteration budget. -/
def MutTerminates (cfg : MutationConfig) (s : List Char) (g : Rng) : Prop :=
  ∃ fuel res, mutLoop cfg fuel s 0 g = some res

/-! ## Cycle Orchestrator (`simulate_multiple_cycles`)

Per-cycle selection, best-ever tracking and the empty-cycle abort of
`simulate_multiple_cycles` (src/simulation_core.py:272-366), modelled over
the per-cycle lists of scored offspring in the order the results were
collected from the worker pool (`as_completed` yields completion order). -/

/-- One scored offspring: `(rep, hist, target_sim, step_sim)` as appended
to `scored` (src/simulation_core.py:295). -/
structure Scored where
  rep : String
  hist : List String
  targetSim : ℚ
  stepSim : ℚ
deriving DecidableEq, Repr

/-- Descending order on `target_similarity`, the key of
`sorted(scored, key=lambda x: x[2], reverse=True)`. -/
def scoredGE (a b : Scored) : Prop := b.targetSim ≤ a.targetSim

instance : DecidableRel scoredGE :=
  fun a b => inferInstanceAs (Decidable (b.targetSim ≤ a.targetSim))

instance : IsTotal Scored scoredGE := ⟨fun a b => le_total b.targetSim a.targetSim⟩

instance : IsTrans Scored scoredGE := ⟨fun _ _ _ h1 h2 => le_trans h2 h1⟩

/-- Embedding of `top = sorted(scored, key=lambda x: x[2], reverse=True)[:top_k]`
(src/simulation_core.py:303): Python's sort is stable, as is insertion sort,
so equal keys keep the order of the collected list. -/
def selectTop (scored : List Scored) (top_k : Nat) : List Scored :=
  (List.insertionSort scoredGE scored).take top_k

/-- The orchestrator state across cycles: the parent candidates
(`current_input_sequences`), the best-ever pair
(`best_similarity`, `best_replicate`) and whether the run aborted
(the `break` on an empty scored list). -/
structure RunState where
  parents : List (String × List String)
  best_similarity : ℚ
  best_replicate : Option String
  aborted : Bool
deriving DecidableEq, Repr

/-- The best-ever update loop over the selected offspring
(src/simulation_core.py:324-340): strict improvement replaces the pair. -/
def updateBest (b : ℚ × Option String) (top : List Scored) : ℚ × Option String :=
  top.foldl (fun p s => if p.1 < s.targetSim then (s.targetSim, some s.rep) else p) b

/-- One cycle of `simulate_multiple_cycles` on the collected scored list:
abort (and keep everything) when no results were scored, otherwise select
the top-k as next parents and update the best-ever pair. -/
def stepCycle (top_k : Nat) (st : RunState) (collected : List Scored) : RunState :=
  if st.aborted then st
  else if collected = [] then { st with aborted := true }
  else
    let top := selectTop collected top_k
    let nb := updateBest (st.best_similarity, st.best_replicate) top
    { parents := top.map (fun s => (s.rep, s.hist)),
      best_similarity := nb.1,
      best_replicate := nb.2,
      aborted := false }

/-- The cycle loop, folded over the per-cycle collected scored lists. -/
def runCycles (top_k : Nat) (st : RunState) (cycles : List (List Scored)) : RunState :=
  cycles.foldl (stepCycle top_k) st

/-! ## Helper lemmas for the similarity scorer -/

theorem alignScore_nil_right (a : List Char) : alignScore a [] = 0 := by
  cases a <;> simp [alignScore]

theorem alignScore_comm (a b : List Char) : alignScore a b = alignScore b a := by
  induction a, b using alignScore.induct with
  | case1 b => simp [alignScore, alignScore_nil_right]
  | case2 a as => simp [alignScore, alignScore_nil_right]
  | case3 a as b bs ih1 ih2 ih3 =>
      simp only [alignScore]
      rw [ih1, ih2, ih3, Nat.max_comm (alignScore (b :: bs) as) (alignScore bs (a :: as))]
      congr 1
      simp [eq_comm]

/-! ## Claim theorems: similarity scorer -/

/-- C6: `compare_proteins` returns 0 whenever either protein is empty
(for any other argument), and 100 on any pair of identical non-empty
proteins. -/
theorem c6_empty_and_identity :
    (∀ x : List Char, compare_proteins [] x = 0 ∧ compare_proteins x [] = 0) ∧
    (∀ p : List Char, p ≠ [] → compare_proteins p p = 100) := by
  constructor
  · intro x
    constructor <;> simp [compare_proteins]
  · intro p hp
    simp [compare_proteins, hp]

/-- Witness for C6 on concrete proteins. -/
theorem c6_empty_and_identity_wit :
    compare_proteins [] ['K'] = 0 ∧ compare_proteins ['K'] [] = 0 ∧
    compare_proteins ['M', 'K'] ['M', 'K'] = 100 :=
  ⟨(c6_empty_and_identity.1 ['K']).1, (c6_empty_and_identity.1 ['K']).2,
    c6_empty_and_identity.2 ['M', 'K'] (by decide)⟩

/-- C7: `compare_proteins` is symmetric in its two arguments; memoization of
this pure function (however keyed) cannot change its value. -/
theorem c7_symm (a b : List Char) : compare_proteins a b = compare_proteins b a := by
  by_cases ha : a = [] <;> by_cases hb : b = []
  · simp [compare_proteins, ha, hb]
  · simp [compare_proteins, ha, hb]
  · simp [compare_proteins, ha, hb]
  · by_cases hab : a = b
    · simp [hab]
    · have hba : ¬b = a := fun h => hab h.symm
      simp only [compare_proteins, ha, hb, hab, hba, or_self, if_false, false_or, or_false]
      rw [alignScore_comm, Nat.max_comm]

/-! ## Helper lemmas for the translation codec -/

theorem atgAt_iff (l : List Base) : atgAt l = true ↔ [Base.A, Base.T, Base.G] <+: l := by
  simp [atgAt]

theorem findAtg_eq_none_iff (s : List Base) :
    findAtg s = none ↔ ¬ [Base.A, Base.T, Base.G] <:+: s := by
  induction s with
  | nil =>
      simp [findAtg]
  | cons b rest ih =>
      rw [List.infix_cons_iff]
      by_cases h : atgAt (b :: rest) = true
      · have hp : [Base.A, Base.T, Base.G] <+: b :: rest := (atgAt_iff (b :: rest)).mp h
        simp [findAtg, h, hp]
      · have hpre : ¬ [Base.A, Base.T, Base.G] <+: b :: rest := fun hp =>
          h ((atgAt_iff (b :: rest)).mpr hp)
        simp [findAtg, h, Option.map_eq_none', ih, hpre]

/-! ## Claim theorems: translation codec -/

/-- C3: on any sequence containing no occurrence of ATG, `translate_from_start`
returns (totally, with no fatal error) the best-effort translation of the
sequence from position 0 truncated to a multiple of 3 — empty when fewer
than 3 bases remain — and raises the no-start-codon diagnostic exactly once. -/
theorem c3_no_start_codon (s : List Base) (h : ¬ [Base.A, Base.T, Base.G] <:+: s) :
    (translate_from_start s).1 = translateCodons (s.take (s.length - s.length % 3)) ∧
    (s.length < 3 → (translate_from_start s).1 = []) ∧
    (translate_from_start s).2.count Diag.noStartCodon = 1 := by
  have hf : findAtg s = none := (findAtg_eq_none_iff s).mpr h
  have hlen : (s.take (s.length - s.length % 3)).length = s.length - s.length % 3 := by
    rw [List.length_take]
    omega
  by_cases hs : s.length < 3
  · have h0 : s.length - s.length % 3 = 0 := by omega
    have heq : translate_from_start s = ([], [Diag.noStartCodon, Diag.tooShort]) := by
      simp [translate_from_start, hf, h0]
    rw [heq]
    refine ⟨by simp [h0, translateCodons], fun _ => rfl, by decide⟩
  · have h3 : ¬ s.length - s.length % 3 < 3 := by omega
    have heq : translate_from_start s =
        (translateCodons (s.take (s.length - s.length % 3)), [Diag.noStartCodon]) := by
      simp [translate_from_start, hf, hlen, h3]
    rw [heq]
    refine ⟨rfl, fun hc => absurd hc hs, ?_⟩
    show List.count Diag.noStartCodon [Diag.noStartCodon] = 1
    decide

/-- Witness for C3 on the concrete sequence ACGTA (no ATG, length 5). -/
theorem c3_no_start_codon_wit :
    (translate_from_start [Base.A, Base.C, Base.G, Base.T, Base.A]).1 =
      translateCodons ([Base.A, Base.C, Base.G, Base.T, Base.A].take
        ([Base.A, Base.C, Base.G, Base.T, Base.A].length -
          [Base.A, Base.C, Base.G, Base.T, Base.A].length % 3)) ∧
    ([Base.A, Base.C, Base.G, Base.T, Base.A].length < 3 →
      (translate_from_start [Base.A, Base.C, Base.G, Base.T, Base.A]).1 = []) ∧
    (translate_from_start [Base.A, Base.C, Base.G, Base.T, Base.A]).2.count
      Diag.noStartCodon = 1 :=
  c3_no_start_codon [Base.A, Base.C, Base.G, Base.T, Base.A] (by decide)

/-- C8: the transition substitution mapping is the deterministic involution
A↔G, C↔T, and `mutate_base_by_type` applies it without consuming randomness. -/
theorem c8_transition_involution :
    transitionChar 'A' = 'G' ∧ transitionChar 'G' = 'A' ∧
    transitionChar 'C' = 'T' ∧ transitionChar 'T' = 'C' ∧
    transitionChar (transitionChar 'A') = 'A' ∧ transitionChar (transitionChar 'G') = 'G' ∧
    transitionChar (transitionChar 'C') = 'C' ∧ transitionChar (transitionChar 'T') = 'T' ∧
    ∀ (c : Char) (g : Rng), mutate_base_by_type c MutKind.transition g = (transitionChar c, g) :=
  ⟨by decide, by decide, by decide, by decide, by decide, by decide, by decide, by decide,
    fun c g => rfl⟩

/-! ## Helper lemmas for the mutation engine -/

theorem Rng.adv_zero (g : Rng) : g.adv 0 = g := rfl

theorem Rng.adv_adv (g : Rng) (a b : Nat) : (g.adv a).adv b = g.adv (a + b) := by
  simp [Rng.adv, Nat.add_assoc]

theorem insertAt_length (i : Nat) (b : Char) (s : List Char) (h : i ≤ s.length) :
    (insertAt i b s).length = s.length + 1 := by
  simp [insertAt, List.length_append, List.length_take, List.length_drop]
  omega

theorem deleteRun_length (i d : Nat) (s : List Char) (h : i + d ≤ s.length) :
    (deleteRun i d s).length = s.length - d := by
  simp [deleteRun, List.length_append, List.length_take, List.length_drop]
  omega

theorem pyRandint1_bounds (m : Nat) (r : ℚ) (hm : 1 ≤ m) :
    1 ≤ pyRandint1 m r ∧ pyRandint1 m r ≤ m := by
  unfold pyRandint1
  have := Nat.min_le_left (m - 1) (r * m).floor.toNat
  omega

theorem mutLoopC_rate_zero (cfg : MutationConfig) (h0 : cfg.mutation_rate = 0) :
    ∀ (fuel : Nat) (s : List Char) (i : Nat) (g : Rng), ValidStream g.stream →
      s.length ≤ fuel + i →
      mutLoopC cfg fuel s i g = (some (s, g.adv (s.length - i)), 0) := by
  intro fuel
  induction fuel with
  | zero =>
      intro s i g _ hle
      have hni : ¬ i < s.length := by omega
      have h0' : s.length - i = 0 := by omega
      simp [mutLoopC, hni, h0', Rng.adv_zero]
  | succ n ih =>
      intro s i g hv hle
      by_cases hi : i < s.length
      · have hr : ¬ g.peek < cfg.mutation_rate := by
          have := (hv g.pos).1
          rw [h0]
          exact not_lt.mpr this
        rw [show mutLoopC cfg (n + 1) s i g = mutLoopC cfg n s (i + 1) (g.adv 1) by
          simp [mutLoopC, hi, hr]]
        rw [ih s (i + 1) (g.adv 1) hv (by omega)]
        rw [Rng.adv_adv]
        rw [show 1 + (s.length - (i + 1)) = s.length - i by omega]
      · have h0' : s.length - i = 0 := by omega
        simp [mutLoopC, hi, h0', Rng.adv_zero]

theorem mutLoopC_allIns (fuel : Nat) :
    ∀ (s : List Char) (i p : Nat), i < s.length →
      mutLoopC cfgAllIns fuel s i ⟨zeroStream, p⟩ = (none, fuel) := by
  induction fuel with
  | zero =>
      intro s i p h
      simp [mutLoopC, h]
  | succ n ih =>
      intro s i p h
      have hlen : (insertAt i 'A' s).length = s.length + 1 :=
        insertAt_length i 'A' s (le_of_lt h)
      have step : mutLoopC cfgAllIns (n + 1) s i ⟨zeroStream, p⟩ =
          ((mutLoopC cfgAllIns n (insertAt i 'A' s) (i + 1) ⟨zeroStream, p + 4⟩).1,
            (mutLoopC cfgAllIns n (insertAt i 'A' s) (i + 1) ⟨zeroStream, p + 4⟩).2 + 1) := by
        simp [mutLoopC, h, cfgAllIns, Rng.peek, Rng.adv, zeroStream, choicesFirst,
          pyChoiceIdx]
        exact ⟨rfl, rfl⟩
      rw [step, ih (insertAt i 'A' s) (i + 1) (p + 4) (by omega)]

/-! ## Claim theorems: mutation engine -/

/-- C5: with `mutation_rate = 0` (and a valid draw stream, any budget at
least the sequence length), `replicate_sequence` returns every offspring
equal to the input sequence, with lineage `history + [input]`. -/
theorem c5_zero_rate (sequence : List Char) (history : List (List Char))
    (n fuel : Nat) (cfg : MutationConfig) (g : Rng)
    (hv : ValidStream g.stream) (h0 : cfg.mutation_rate = 0)
    (hf : sequence.length ≤ fuel) :
    replicate_sequence sequence history n cfg fuel g =
      some (List.replicate n (sequence, history ++ [sequence]),
        g.adv (n * sequence.length)) := by
  induction n generalizing g with
  | zero => simp [replicate_sequence, List.replicate, Rng.adv_zero]
  | succ k ih =>
      have hloop : mutLoop cfg fuel sequence 0 g =
          some (sequence, g.adv sequence.length) := by
        rw [mutLoop, mutLoopC_rate_zero cfg h0 fuel sequence 0 g hv (by omega)]
        simp
      rw [replicate_sequence, hloop]
      simp only [ih (g.adv sequence.length) hv]
      rw [Rng.adv_adv]
      rw [show sequence.length + k * sequence.length = (k + 1) * sequence.length by ring]
      simp [List.replicate_succ]

/-- Witness for C5: two replications of AT at rate 0 both return AT. -/
theorem c5_zero_rate_wit :
    replicate_sequence ['A', 'T'] [] 2 ⟨0, 1, 1, 1, 1⟩ 2 ⟨fun _ => (1 : ℚ)/2, 0⟩ =
      some (List.replicate 2 (['A', 'T'], [] ++ [['A', 'T']]),
        Rng.adv ⟨fun _ => (1 : ℚ)/2, 0⟩ (2 * List.length ['A', 'T'])) :=
  c5_zero_rate ['A', 'T'] [] 2 2 ⟨0, 1, 1, 1, 1⟩ ⟨fun _ => (1 : ℚ)/2, 0⟩
    (fun _ => by norm_num) rfl (by decide)

/-- C9: at any loop position `i < len`, the deletion run length drawn by
`random.randint(1, min(3, len - i))` lies in `[1, min(3, len - i)]`, so the
deleted slice stays inside the sequence and removes exactly that many
bases; and on an empty working sequence the loop returns at once without
attempting any mutation. -/
theorem c9_deletion_bounds (cfg : MutationConfig) (s : List Char) (i fuel j : Nat)
    (g g2 : Rng) (h : i < s.length) :
    (1 ≤ pyRandint1 (min 3 (s.length - i)) g.peek ∧
     pyRandint1 (min 3 (s.length - i)) g.peek ≤ min 3 (s.length - i) ∧
     i + pyRandint1 (min 3 (s.length - i)) g.peek ≤ s.length ∧
     (deleteRun i (pyRandint1 (min 3 (s.length - i)) g.peek) s).length =
       s.length - pyRandint1 (min 3 (s.length - i)) g.peek) ∧
    mutLoop cfg fuel [] j g2 = some ([], g2) := by
  have hm : 1 ≤ min 3 (s.length - i) := by omega
  obtain ⟨h1, h2⟩ := pyRandint1_bounds (min 3 (s.length - i)) g.peek hm
  have hin : i + pyRandint1 (min 3 (s.length - i)) g.peek ≤ s.length := by omega
  refine ⟨⟨h1, h2, hin, deleteRun_length _ _ _ hin⟩, ?_⟩
  cases fuel <;> simp [mutLoop, mutLoopC]

/-- Witness for C9 at position 1 of the two-base sequence AC. -/
theorem c9_deletion_bounds_wit :
    (1 ≤ pyRandint1 (min 3 (List.length ['A', 'C'] - 1)) (Rng.peek ⟨fun _ => 0, 0⟩) ∧
     pyRandint1 (min 3 (List.length ['A', 'C'] - 1)) (Rng.peek ⟨fun _ => 0, 0⟩) ≤
       min 3 (List.length ['A', 'C'] - 1) ∧
     1 + pyRandint1 (min 3 (List.length ['A', 'C'] - 1)) (Rng.peek ⟨fun _ => 0, 0⟩) ≤
       List.length ['A', 'C'] ∧
     (deleteRun 1 (pyRandint1 (min 3 (List.length ['A', 'C'] - 1))
         (Rng.peek ⟨fun _ => 0, 0⟩)) ['A', 'C']).length =
       List.length ['A', 'C'] -
         pyRandint1 (min 3 (List.length ['A', 'C'] - 1)) (Rng.peek ⟨fun _ => 0, 0⟩)) ∧
    mutLoop ⟨1, 1, 1, 1, 1⟩ 5 [] 3 ⟨fun _ => 0, 7⟩ = some ([], ⟨fun _ => 0, 7⟩) :=
  c9_deletion_bounds ⟨1, 1, 1, 1, 1⟩ ['A', 'C'] 1 5 3 ⟨fun _ => 0, 0⟩ ⟨fun _ => 0, 7⟩
    (by decide)

/-- C10 counterexample: with `mutation_rate = 1`, substitution weight 0 and
the constant-0 draw stream, every iteration inserts and skips the inserted
base, so the loop never returns on the one-base input A — the unconditional
termination claim fails. -/
theorem c10_cex : ¬ MutTerminates cfgAllIns ['A'] ⟨zeroStream, 0⟩ := by
  rintro ⟨fuel, res, hres⟩
  rw [mutLoop, mutLoopC_allIns fuel ['A'] 0 0 (by decide)] at hres
  simp at hres

/-- C10 (amended): every executed iteration except an insertion strictly
shrinks the remaining-suffix measure `len - i`, and insertions leave it
unchanged; hence a run that exhausts its budget of `n` iterations must have
taken the insertion branch at least `n + 1 - (len - i)` times, so the loop
returns whenever only boundedly many insertion events occur. -/
theorem c10_fuel_bound (cfg : MutationConfig) :
    ∀ (n : Nat) (s : List Char) (i : Nat) (g : Rng) (c : Nat),
      mutLoopC cfg n s i g = (none, c) → n + 1 ≤ (s.length - i) + c := by
  intro n
  induction n with
  | zero =>
      intro s i g c hmain
      by_cases hi : i < s.length
      · simp [mutLoopC, hi] at hmain
        omega
      · simp [mutLoopC, hi] at hmain
  | succ n ih =>
      intro s i g c hmain
      by_cases hi : i < s.length
      · by_cases hm : g.peek < cfg.mutation_rate
        · by_cases hc : choicesFirst cfg.subWeight cfg.indelWeight (g.adv 1).peek
          · simp only [mutLoopC, if_pos hi, if_pos hm, hc, if_true] at hmain
            have := ih _ _ _ _ hmain
            rw [List.length_set] at this
            omega
          · by_cases hcoin : (g.adv 2).peek < 1/2
            · simp only [mutLoopC, if_pos hi, if_pos hm, hc, if_false, if_pos hcoin,
                Bool.false_eq_true] at hmain
              rcases hr : mutLoopC cfg n
                  (insertAt i (List.getD ['A', 'T', 'C', 'G']
                    (pyChoiceIdx 4 (g.adv 3).peek) 'A') s) (i + 1) (g.adv 4) with ⟨o, c1⟩
              rw [hr] at hmain
              simp at hmain
              obtain ⟨ho, hcc⟩ := hmain
              have := ih _ _ _ _ (by rw [hr, ho])
              rw [insertAt_length _ _ _ (le_of_lt hi)] at this
              omega
            · simp only [mutLoopC, if_pos hi, if_pos hm, hc, if_false, if_neg hcoin,
                Bool.false_eq_true] at hmain
              have hb := ih _ _ _ _ hmain
              have hm1 : 1 ≤ min 3 (s.length - i) := by omega
              obtain ⟨hd1, hd2⟩ := pyRandint1_bounds (min 3 (s.length - i))
                (g.adv 3).peek hm1
              have hin : i + pyRandint1 (min 3 (s.length - i)) (g.adv 3).peek ≤
                  s.length := by omega
              rw [deleteRun_length _ _ _ hin] at hb
              omega
        · simp only [mutLoopC, if_pos hi, if_neg hm] at hmain
          have := ih _ _ _ _ hmain
          omega
      · simp [mutLoopC, hi] at hmain

/-- Witness for C10's fuel bound: the all-insertions adversary exhausts a
budget of 2 iterations on the one-base input with 2 insertions. -/
theorem c10_fuel_bound_wit : 2 + 1 ≤ (List.length ['A'] - 0) + 2 :=
  c10_fuel_bound cfgAllIns 2 ['A'] 0 ⟨zeroStream, 0⟩ 2
    (mutLoopC_allIns 2 ['A'] 0 0 (by decide))

/-! ## Helper lemmas for the cycle orchestrator -/

theorem pairwise_strict_of_sorted_distinct (l : List Scored)
    (hs : l.Sorted scoredGE) (hd : l.Pairwise fun a b => a.targetSim ≠ b.targetSim) :
    l.Pairwise fun a b => b.targetSim < a.targetSim := by
  induction l with
  | nil => exact List.Pairwise.nil
  | cons a t ih =>
      rw [List.sorted_cons] at hs
      rw [List.pairwise_cons] at hd ⊢
      exact ⟨fun b hb => lt_of_le_of_ne (hs.1 b hb) (Ne.symm (hd.1 b hb)),
        ih hs.2 hd.2⟩

theorem selectTop_subset (c : List Scored) (k : Nat) :
    ∀ t ∈ selectTop c k, t ∈ c := by
  intro t ht
  exact (List.perm_insertionSort scoredGE c).subset (List.take_subset _ _ ht)

theorem selectTop_cover (c : List Scored) (k : Nat) (hk : 1 ≤ k) :
    ∀ s ∈ c, ∃ t ∈ selectTop c k, s.targetSim ≤ t.targetSim := by
  intro s hs
  have hmem : s ∈ List.insertionSort scoredGE c :=
    (List.perm_insertionSort scoredGE c).mem_iff.mpr hs
  rcases hsort : List.insertionSort scoredGE c with _ | ⟨h, t⟩
  · rw [hsort] at hmem
    simp at hmem
  · have hsorted := List.sorted_insertionSort scoredGE c
    rw [hsort, List.sorted_cons] at hsorted
    rw [hsort] at hmem
    have hle : s.targetSim ≤ h.targetSim := by
      rcases List.mem_cons.mp hmem with rfl | hmem'
      · exact le_refl _
      · exact hsorted.1 s hmem'
    refine ⟨h, ?_, hle⟩
    unfold selectTop
    rw [hsort]
    rcases k with _ | k'
    · omega
    · simp [List.take_succ_cons]

theorem selectTop_ne_nil (c : List Scored) (k : Nat) (hc : c ≠ []) (hk : 1 ≤ k) :
    selectTop c k ≠ [] := by
  intro h
  have hlen := congrArg List.length h
  rw [selectTop, List.length_take,
    (List.perm_insertionSort scoredGE c).length_eq] at hlen
  simp at hlen
  rcases hlen with h0 | h0
  · omega
  · exact hc h0

theorem updateBest_spec (l : List Scored) :
    ∀ (b : ℚ) (r : Option String),
      b ≤ (updateBest (b, r) l).1 ∧
      (∀ s ∈ l, s.targetSim ≤ (updateBest (b, r) l).1) ∧
      ((updateBest (b, r) l).1 = b ∧ (updateBest (b, r) l).2 = r ∨
        ∃ s ∈ l, s.targetSim = (updateBest (b, r) l).1 ∧
          (updateBest (b, r) l).2 = some s.rep) := by
  induction l with
  | nil =>
      intro b r
      exact ⟨le_refl b, by simp, Or.inl ⟨rfl, rfl⟩⟩
  | cons a t ih =>
      intro b r
      have hstep : updateBest (b, r) (a :: t) =
          updateBest (if b < a.targetSim then (a.targetSim, some a.rep) else (b, r)) t := rfl
      by_cases hba : b < a.targetSim
      · rw [hstep, if_pos hba]
        obtain ⟨h1, h2, h3⟩ := ih a.targetSim (some a.rep)
        refine ⟨le_trans (le_of_lt hba) h1, ?_, ?_⟩
        · intro s hs
          rcases List.mem_cons.mp hs with rfl | hs'
          · exact h1
          · exact h2 s hs'
        · rcases h3 with ⟨he1, he2⟩ | ⟨s, hs, he1, he2⟩
          · exact Or.inr ⟨a, List.mem_cons_self a t, he1.symm, he2⟩
          · exact Or.inr ⟨s, List.mem_cons_of_mem a hs, he1, he2⟩
      · rw [hstep, if_neg hba]
        obtain ⟨h1, h2, h3⟩ := ih b r
        refine ⟨h1, ?_, ?_⟩
        · intro s hs
          rcases List.mem_cons.mp hs with rfl | hs'
          · exact le_trans (not_lt.mp hba) h1
          · exact h2 s hs'
        · rcases h3 with ⟨he1, he2⟩ | ⟨s, hs, he1, he2⟩
          · exact Or.inl ⟨he1, he2⟩
          · exact Or.inr ⟨s, List.mem_cons_of_mem a hs, he1, he2⟩

theorem runCycles_best_mono (k : Nat) :
    ∀ (cs : List (List Scored)) (st : RunState),
      st.best_similarity ≤ (runCycles k st cs).best_similarity := by
  intro cs
  induction cs with
  | nil => intro st; exact le_refl _
  | cons c cs ih =>
      intro st
      have hstep : st.best_similarity ≤ (stepCycle k st c).best_similarity := by
        unfold stepCycle
        by_cases h1 : st.aborted
        · simp [h1]
        · by_cases h2 : c = []
          · simp [h1, h2]
          · simp only [h1, h2, if_false, Bool.false_eq_true]
            exact (updateBest_spec (selectTop c k) st.best_similarity st.best_replicate).1
      exact le_trans hstep (ih (stepCycle k st c))

theorem runCycles_aborted (k : Nat) :
    ∀ (cs : List (List Scored)) (st : RunState),
      st.aborted = true → runCycles k st cs = st := by
  intro cs
  induction cs with
  | nil => intro st _; rfl
  | cons c cs ih =>
      intro st ha
      have : stepCycle k st c = st := by simp [stepCycle, ha]
      rw [runCycles, List.foldl_cons, this]
      exact ih st ha

theorem stepCycle_empty (k : Nat) (st : RunState) :
    stepCycle k st [] = { st with aborted := true } := by
  rcases st with ⟨p, b, r, a⟩
  cases a <;> simp [stepCycle]

theorem runCycles_parents_ne (k : Nat) (hk : 1 ≤ k) :
    ∀ (cs : List (List Scored)) (st : RunState),
      st.parents ≠ [] → (runCycles k st cs).parents ≠ [] := by
  intro cs
  induction cs with
  | nil => intro st hp; exact hp
  | cons c cs ih =>
      intro st hp
      rw [runCycles, List.foldl_cons]
      refine ih (stepCycle k st c) ?_
      unfold stepCycle
      by_cases h1 : st.aborted
      · simp [h1]; exact hp
      · by_cases h2 : c = []
        · simp [h1, h2]; exact hp
        · simp only [h1, h2, if_false, Bool.false_eq_true]
          intro hmap
          exact selectTop_ne_nil c k h2 hk (List.map_eq_nil_iff.mp hmap)

theorem runCycles_best_spec (k : Nat) (hk : 1 ≤ k) :
    ∀ (cs : List (List Scored)) (st : RunState), st.aborted = false →
      (∀ c ∈ cs, c ≠ []) →
      ((runCycles k st cs).aborted = false ∧
       (∀ c ∈ cs, ∀ s ∈ c, s.targetSim ≤ (runCycles k st cs).best_similarity) ∧
       ((runCycles k st cs).best_similarity = st.best_similarity ∧
          (runCycles k st cs).best_replicate = st.best_replicate ∨
        ∃ c ∈ cs, ∃ s ∈ c, s.targetSim = (runCycles k st cs).best_similarity ∧
          (runCycles k st cs).best_replicate = some s.rep)) := by
  intro cs
  induction cs with
  | nil =>
      intro st ha _
      exact ⟨ha, by simp, Or.inl ⟨rfl, rfl⟩⟩
  | cons c cs ih =>
      intro st ha hne
      have hc : c ≠ [] := hne c (List.mem_cons_self c cs)
      have hrw : ∀ (X : RunState → Prop), X (runCycles k st (c :: cs)) ↔
          X (runCycles k (stepCycle k st c) cs) := fun X => Iff.rfl
      have h1a : (stepCycle k st c).aborted = false := by
        simp [stepCycle, ha, hc]
      have h1b : (stepCycle k st c).best_similarity =
          (updateBest (st.best_similarity, st.best_replicate) (selectTop c k)).1 := by
        simp [stepCycle, ha, hc]
      have h1r : (stepCycle k st c).best_replicate =
          (updateBest (st.best_similarity, st.best_replicate) (selectTop c k)).2 := by
        simp [stepCycle, ha, hc]
      obtain ⟨hfa, hbound, hach⟩ :=
        ih (stepCycle k st c) h1a (fun d hd => hne d (List.mem_cons_of_mem c hd))
      obtain ⟨hub1, hub2, hub3⟩ :=
        updateBest_spec (selectTop c k) st.best_similarity st.best_replicate
      have hmono := runCycles_best_mono k cs (stepCycle k st c)
      have hfold : runCycles k st (c :: cs) = runCycles k (stepCycle k st c) cs := rfl
      rw [hfold]
      refine ⟨hfa, ?_, ?_⟩
      · intro c' hc' s hs
        rcases List.mem_cons.mp hc' with rfl | hc''
        · obtain ⟨t, htmem, hst⟩ := selectTop_cover c' k hk s hs
          have : t.targetSim ≤ (stepCycle k st c').best_similarity := by
            rw [h1b]
            exact hub2 t htmem
          exact le_trans hst (le_trans this hmono)
        · exact hbound c' hc'' s hs
      · rcases hach with ⟨he1, he2⟩ | ⟨c', hc', s, hs, he1, he2⟩
        · rcases hub3 with ⟨hu1, hu2⟩ | ⟨s, hsmem, hu1, hu2⟩
          · exact Or.inl ⟨by rw [he1, h1b, hu1], by rw [he2, h1r, hu2]⟩
          · refine Or.inr ⟨c, List.mem_cons_self c cs, s, selectTop_subset c k s hsmem, ?_, ?_⟩
            · rw [he1, h1b, ← hu1]
            · rw [he2, h1r, hu2]
        · exact Or.inr ⟨c', List.mem_cons_of_mem c hc', s, hs, he1, he2⟩

/-! ## Claim theorems: cycle orchestrator -/

/-- C1 counterexample: two offspring tied at `target_similarity = 50`,
collected in the two possible orders (permutations of the same generated
population), select different next parents — the code sorts the collected
list, so ties are broken by collection order, not generation order. -/
theorem c1_cex :
    [(⟨"CC", ["CC"], 50, 0⟩ : Scored), ⟨"AA", ["AA"], 50, 0⟩].Perm
      [(⟨"AA", ["AA"], 50, 0⟩ : Scored), ⟨"CC", ["CC"], 50, 0⟩] ∧
    selectTop [(⟨"CC", ["CC"], 50, 0⟩ : Scored), ⟨"AA", ["AA"], 50, 0⟩] 1 ≠
      selectTop [(⟨"AA", ["AA"], 50, 0⟩ : Scored), ⟨"CC", ["CC"], 50, 0⟩] 1 := by
  constructor
  · exact List.Perm.swap _ _ _
  · decide

/-- C1 (amended): selection takes the top-k of the collected results under
the stable descending sort on `target_similarity` (ties broken by
collection order); whenever the generated offspring have pairwise distinct
`target_similarity`, the selected parents are independent of the order in
which scoring results were collected. -/
theorem c1_selection_indep (gen collected : List Scored) (k : Nat)
    (hp : collected.Perm gen)
    (hd : gen.Pairwise fun a b => a.targetSim ≠ b.targetSim) :
    selectTop collected k = selectTop gen k := by
  unfold selectTop
  congr 1
  have hp1 : (List.insertionSort scoredGE collected).Perm gen :=
    (List.perm_insertionSort scoredGE collected).trans hp
  have hp2 : (List.insertionSort scoredGE gen).Perm gen :=
    List.perm_insertionSort scoredGE gen
  have hd1 : (List.insertionSort scoredGE collected).Pairwise
      (fun a b => a.targetSim ≠ b.targetSim) :=
    (hp1.pairwise_iff (fun h => Ne.symm h)).mpr hd
  have hd2 : (List.insertionSort scoredGE gen).Pairwise
      (fun a b => a.targetSim ≠ b.targetSim) :=
    (hp2.pairwise_iff (fun h => Ne.symm h)).mpr hd
  have hs1 := pairwise_strict_of_sorted_distinct _
    (List.sorted_insertionSort scoredGE collected) hd1
  have hs2 := pairwise_strict_of_sorted_distinct _
    (List.sorted_insertionSort scoredGE gen) hd2
  haveI : IsAntisymm Scored (fun a b => b.targetSim < a.targetSim) :=
    ⟨fun a b h1 h2 => absurd (lt_trans h1 h2) (lt_irrefl _)⟩
  exact List.eq_of_perm_of_sorted (hp1.trans hp2.symm) hs1 hs2

/-- Witness for C1's amended claim on two offspring with distinct scores. -/
theorem c1_selection_indep_wit :
    selectTop [(⟨"CC", ["CC"], 40, 0⟩ : Scored), ⟨"AA", ["AA"], 60, 0⟩] 1 =
      selectTop [(⟨"AA", ["AA"], 60, 0⟩ : Scored), ⟨"CC", ["CC"], 40, 0⟩] 1 :=
  c1_selection_indep [⟨"AA", ["AA"], 60, 0⟩, ⟨"CC", ["CC"], 40, 0⟩]
    [⟨"CC", ["CC"], 40, 0⟩, ⟨"AA", ["AA"], 60, 0⟩] 1
    (List.Perm.swap _ _ _) (by decide)

/-- C2 counterexample: one completed cycle whose single scored offspring
has `target_similarity = 0` (its protein is empty).  The global maximum is
0 and is attained by that offspring, yet `best_similarity` stays 0 with
`best_replicate = None` — the best-ever pair holds no achieving sequence. -/
theorem c2_cex :
    (⟨"A", ["G", "A"], 0, 0⟩ : Scored).targetSim = 0 ∧
    (runCycles 1 ⟨[("G", ["G"])], 0, none, false⟩
      [[⟨"A", ["G", "A"], 0, 0⟩]]).best_similarity = 0 ∧
    ¬ ∃ s : Scored, s ∈ [(⟨"A", ["G", "A"], 0, 0⟩ : Scored)] ∧
        (runCycles 1 ⟨[("G", ["G"])], 0, none, false⟩
          [[⟨"A", ["G", "A"], 0, 0⟩]]).best_replicate = some s.rep := by
  decide

/-- C2 (amended): starting from `(0, None)` with `top_k ≥ 1`, after any run
of completed (non-empty) cycles, `best_similarity` is an upper bound on the
`target_similarity` of every offspring scored in any cycle — whether or not
its owner was selected — and either it is still 0 with `best_replicate =
None`, or some scored offspring attains it and `best_replicate` is that
offspring's sequence; moreover `best_similarity` never decreases as further
cycles complete. -/
theorem c2_best_ever (k : Nat) (st : RunState) (cs : List (List Scored))
    (hk : 1 ≤ k) (hne : ∀ c ∈ cs, c ≠ [])
    (hst : st.best_similarity = 0 ∧ st.best_replicate = none ∧ st.aborted = false) :
    (∀ c ∈ cs, ∀ s ∈ c, s.targetSim ≤ (runCycles k st cs).best_similarity) ∧
    ((runCycles k st cs).best_similarity = 0 ∧
        (runCycles k st cs).best_replicate = none ∨
      ∃ c ∈ cs, ∃ s ∈ c, s.targetSim = (runCycles k st cs).best_similarity ∧
        (runCycles k st cs).best_replicate = some s.rep) ∧
    ∀ pre suf, cs = pre ++ suf →
      (runCycles k st pre).best_similarity ≤ (runCycles k st cs).best_similarity := by
  obtain ⟨h0, hn, ha⟩ := hst
  obtain ⟨hfa, hbound, hach⟩ := runCycles_best_spec k hk cs st ha hne
  refine ⟨hbound, ?_, ?_⟩
  · rcases hach with ⟨he1, he2⟩ | h
    · exact Or.inl ⟨h0 ▸ he1, hn ▸ he2⟩
    · exact Or.inr h
  · intro pre suf heq
    subst heq
    rw [show runCycles k st (pre ++ suf) = runCycles k (runCycles k st pre) suf from by
      simp [runCycles, List.foldl_append]]
    exact runCycles_best_mono k suf (runCycles k st pre)

/-- Witness for C2's amended claim: one cycle, one offspring scoring 50. -/
theorem c2_best_ever_wit :
    (∀ c ∈ [[(⟨"X", ["S", "X"], 50, 0⟩ : Scored)]], ∀ s ∈ c, s.targetSim ≤
      (runCycles 1 ⟨[("S", ["S"])], 0, none, false⟩
        [[(⟨"X", ["S", "X"], 50, 0⟩ : Scored)]]).best_similarity) ∧
    ((runCycles 1 ⟨[("S", ["S"])], 0, none, false⟩
        [[(⟨"X", ["S", "X"], 50, 0⟩ : Scored)]]).best_similarity = 0 ∧
      (runCycles 1 ⟨[("S", ["S"])], 0, none, false⟩
        [[(⟨"X", ["S", "X"], 50, 0⟩ : Scored)]]).best_replicate = none ∨
      ∃ c ∈ [[(⟨"X", ["S", "X"], 50, 0⟩ : Scored)]], ∃ s ∈ c, s.targetSim =
        (runCycles 1 ⟨[("S", ["S"])], 0, none, false⟩
          [[(⟨"X", ["S", "X"], 50, 0⟩ : Scored)]]).best_similarity ∧
        (runCycles 1 ⟨[("S", ["S"])], 0, none, false⟩
          [[(⟨"X", ["S", "X"], 50, 0⟩ : Scored)]]).best_replicate = some s.rep) ∧
    ∀ pre suf, [[(⟨"X", ["S", "X"], 50, 0⟩ : Scored)]] = pre ++ suf →
      (runCycles 1 ⟨[("S", ["S"])], 0, none, false⟩ pre).best_similarity ≤
        (runCycles 1 ⟨[("S", ["S"])], 0, none, false⟩
          [[(⟨"X", ["S", "X"], 50, 0⟩ : Scored)]]).best_similarity :=
  c2_best_ever 1 ⟨[("S", ["S"])], 0, none, false⟩
    [[(⟨"X", ["S", "X"], 50, 0⟩ : Scored)]] (le_refl 1) (by decide) ⟨rfl, rfl, rfl⟩

/-- C4: a cycle whose collected scored list is empty aborts the run on the
spot — the state after processing it (and any later cycles) is exactly the
state before it with the aborted flag set, so no selection happens, later
cycles never execute, and the (never empty, with `top_k ≥ 1`) parent set is
not replaced. -/
theorem c4_empty_cycle_abort (k : Nat) (st : RunState)
    (pre rest : List (List Scored)) (hk : 1 ≤ k) (hp : st.parents ≠ []) :
    runCycles k st (pre ++ [] :: rest) = { runCycles k st pre with aborted := true } ∧
    (runCycles k st (pre ++ [] :: rest)).parents ≠ [] := by
  have h1 : runCycles k st (pre ++ [] :: rest) =
      runCycles k (stepCycle k (runCycles k st pre) []) rest := by
    simp [runCycles, List.foldl_append]
  have h2 : stepCycle k (runCycles k st pre) [] =
      { runCycles k st pre with aborted := true } := stepCycle_empty k _
  have h3 : runCycles k { runCycles k st pre with aborted := true } rest =
      { runCycles k st pre with aborted := true } :=
    runCycles_aborted k rest _ rfl
  refine ⟨by rw [h1, h2, h3], ?_⟩
  rw [h1, h2, h3]
  exact runCycles_parents_ne k hk pre st hp

/-- Witness for C4: a single empty cycle aborts while keeping the parent. -/
theorem c4_empty_cycle_abort_wit :
    runCycles 1 (⟨[("A", ["A"])], 0, none, false⟩ : RunState) [[]] =
      { runCycles 1 (⟨[("A", ["A"])], 0, none, false⟩ : RunState) []
        with aborted := true } ∧
    (runCycles 1 (⟨[("A", ["A"])], 0, none, false⟩ : RunState) [[]]).parents ≠ [] :=
  c4_empty_cycle_abort 1 ⟨[("A", ["A"])], 0, none, false⟩ [] [] (le_refl 1) (by decide)
